import Mathlib

/-!
Verification of the AnimeTracker repository core (src/AnimeTracker.py).

The development shallowly embeds the repository/service layer of the
program: the `Anime` record constructor with its field normalization,
serialization (`to_dict` / `from_dict`, `save` / `load`), the store
operations `add_anime`, `delete_by_title`, `search`, and the reporting
functions `stats` and `recommend`.

Python dynamic values are modelled by the inductive type `PyVal`
(None, int, str, list); machine behaviour such as truthiness, `int(...)`
conversion, `str(...)` rendering, `str.isdigit`, `str.strip`,
`str.lower`, and substring membership is given by executable functions
on `PyVal` / `String`.  Fallible Python expressions (those that can
raise) are embedded in `Except String`, the error string naming the
Python exception class.  Strings are treated at ASCII fidelity.
-/

deriving instance DecidableEq for Except

namespace AnimeTracker

/-- Shorthand for `Except.ok` at error type `String`, used to state
injectivity steps without ambient type annotations. -/
abbrev except_okS {α : Type} (a : α) : Except String α := Except.ok a

/-- A scalar Python value: `None`, an integer, or a string. -/
inductive PyAtom where
  | none : PyAtom
  | int  : Int → PyAtom
  | str  : String → PyAtom
deriving DecidableEq, Repr

/-- A Python value as it appears in the fields of this program: `None`,
an integer, a string, or a list.  Lists are modelled one level deep
(lists of scalars), which covers every value the program's record fields
can hold. -/
inductive PyVal where
  | none : PyVal
  | int  : Int → PyVal
  | str  : String → PyVal
  | list : List PyAtom → PyVal
deriving DecidableEq, Repr

/-- View a scalar as a value. -/
def PyAtom.toVal : PyAtom → PyVal
  | .none => .none
  | .int n => .int n
  | .str s => .str s

/-- Python truthiness: `None` is falsy, numbers are truthy iff nonzero,
strings and lists are truthy iff nonempty. -/
def pyTruthy : PyVal → Bool
  | .none => false
  | .int n => n ≠ 0
  | .str s => s ≠ ""
  | .list xs => !xs.isEmpty

/-- The decimal digit character for `n < 10`. -/
def digitChar (n : Nat) : Char := Char.ofNat (48 + n)

/-- Decimal digits of a natural number, most significant first.
Fuel-indexed so that the definition is structurally recursive (and hence
reduces inside `decide` / `rfl`); `natRepr` supplies enough fuel. -/
def natDigitsAux : Nat → Nat → List Char
  | 0, _ => []
  | fuel + 1, n =>
    if n < 10 then [digitChar n]
    else natDigitsAux fuel (n / 10) ++ [digitChar (n % 10)]

/-- Python `str(n)` for a natural number. -/
def natRepr (n : Nat) : String := ⟨natDigitsAux (n + 1) n⟩

/-- Python `str(n)` for an integer (a leading minus sign when negative). -/
def intRepr (n : Int) : String :=
  if n < 0 then "-" ++ natRepr n.natAbs else natRepr n.toNat

/-- Python `repr` of a scalar (ASCII fidelity; strings are quoted). -/
def atomRepr : PyAtom → String
  | .none => "None"
  | .int n => intRepr n
  | .str s => "\x27" ++ s ++ "\x27"

/-- Python `repr` of a value. -/
def pyRepr : PyVal → String
  | .none => "None"
  | .int n => intRepr n
  | .str s => "\x27" ++ s ++ "\x27"
  | .list xs => "[" ++ ", ".intercalate (xs.map atomRepr) ++ "]"

/-- Python `str(v)`: identity on strings, `repr` otherwise. -/
def pyStr : PyVal → String
  | .str s => s
  | v => pyRepr v

/-- Python `s.isdigit()` at ASCII fidelity: nonempty and all decimal
digits. -/
def isdigitStr (s : String) : Bool := s.data ≠ [] && s.data.all Char.isDigit

/-- Value of a nonempty all-digit character list, most significant
first. -/
def digitsVal (cs : List Char) : Nat :=
  cs.foldl (fun a c => a * 10 + (c.toNat - 48)) 0

/-- Parse a nonempty all-digit character list, as Python `int` does after
sign handling.  Underscore separators are not modelled. -/
def parseDigits (cs : List Char) : Option Nat :=
  if cs ≠ [] ∧ cs.all Char.isDigit then some (digitsVal cs) else Option.none

/-- Parse an optional sign followed by digits (the body of Python
`int(string)` after whitespace stripping). -/
def parseIntChars (cs : List Char) : Option Int :=
  match cs with
  | [] => Option.none
  | c :: rest =>
    if c = '-' then (parseDigits rest).map (fun n => -(n : Int))
    else if c = '+' then (parseDigits rest).map (fun n => (n : Int))
    else (parseDigits cs).map (fun n => (n : Int))

/-- Characters removed by Python `str.strip()` (ASCII fidelity). -/
def isSpaceChar (c : Char) : Bool := c.isWhitespace

/-- Python `s.strip()` on a character list: drop whitespace from both
ends. -/
def stripChars (cs : List Char) : List Char :=
  (((cs.dropWhile isSpaceChar).reverse.dropWhile isSpaceChar).reverse)

/-- Python `s.strip()`. -/
def stripStr (s : String) : String := ⟨stripChars s.data⟩

/-- Python `c.lower()` on one character (ASCII fidelity). -/
def lowerChar (c : Char) : Char :=
  if 65 ≤ c.toNat ∧ c.toNat ≤ 90 then Char.ofNat (c.toNat + 32) else c

/-- Python `s.lower()` (ASCII fidelity). -/
def lowerStr (s : String) : String := ⟨s.data.map lowerChar⟩

/-- Python `int(v)`: identity on ints; strings are stripped and parsed
(`ValueError` on failure); other values raise `TypeError`. -/
def pyInt : PyVal → Except String Int
  | .int n => .ok n
  | .str s =>
    match parseIntChars (stripChars s.data) with
    | some n => .ok n
    | Option.none => .error "ValueError"
  | _ => .error "TypeError"

/-- Python iteration `for x in v`: lists yield their elements, strings
yield their characters as one-character strings, other values raise
`TypeError`. -/
def pyIter : PyVal → Except String (List PyVal)
  | .list xs => .ok (xs.map PyAtom.toVal)
  | .str s => .ok (s.data.map (fun c => .str ⟨[c]⟩))
  | _ => .error "TypeError"

/-- Python substring containment `sub in hay` on strings: some position
of `hay` starts with `sub`. -/
def strContains (hay sub : String) : Bool :=
  (List.range (hay.data.length + 1)).any
    (fun i => sub.data.isPrefixOf (hay.data.drop i))

/-- One anime entry, as held in `self.animes` (class `Anime`). -/
structure Anime where
  title : String
  year : Option Int
  genres : List String
  status : String
  rating : Option Int
deriving DecidableEq, Repr

/-- Embeds `self.title = title.strip()`: the title must be a string
(`AttributeError` otherwise). -/
def titleOf : PyVal → Except String String
  | .str s => .ok (stripStr s)
  | _ => .error "AttributeError"

/-- Embeds `self.year = int(year) if year else None`. -/
def yearOf (v : PyVal) : Except String (Option Int) :=
  if pyTruthy v then (pyInt v).map some else .ok Option.none

/-- One step of the genres comprehension: `g.strip()` requires a string
(`AttributeError` otherwise). -/
def stripItem : PyVal → Except String String
  | .str s => .ok (stripStr s)
  | _ => .error "AttributeError"

/-- Embeds `self.genres = [g.strip() for g in (genres or []) if g.strip()]`. -/
def genresOf (v : PyVal) : Except String (List String) := do
  let items ← pyIter (if pyTruthy v then v else .list [])
  let stripped ← items.mapM stripItem
  return stripped.filter (fun g => g ≠ "")

/-- Embeds `self.status = status.strip().lower() if status else "planned"`. -/
def statusOf (v : PyVal) : Except String String :=
  if pyTruthy v then
    match v with
    | .str s => .ok (lowerStr (stripStr s))
    | .none => .error "AttributeError"
    | .int _ => .error "AttributeError"
    | .list _ => .error "AttributeError"
  else .ok "planned"

/-- Embeds `self.rating = int(rating) if (str(rating).isdigit()) and
0 <= int(rating) <= 5 else None`. -/
def ratingOf (v : PyVal) : Except String (Option Int) :=
  if isdigitStr (pyStr v) then
    (pyInt v).map (fun n => if 0 ≤ n ∧ n ≤ 5 then some n else Option.none)
  else .ok Option.none

/-- Embeds `Anime.__init__`, assigning the five fields in source order.  Raising
is modelled by `Except.error` naming the Python exception class. -/
def initAnime (title year genres status rating : PyVal) :
    Except String Anime := do
  let t ← titleOf title
  let y ← yearOf year
  let g ← genresOf genres
  let st ← statusOf status
  let r ← ratingOf rating
  return ⟨t, y, g, st, r⟩

/-- One entry of the durable JSON file, seen through the five keys
`Anime.from_dict` reads (`d.get` on any other key is irrelevant).
An `Option.none` field means the key is absent. -/
structure RawEntry where
  titleKey : Option PyVal
  yearKey : Option PyVal
  genresKey : Option PyVal
  statusKey : Option PyVal
  ratingKey : Option PyVal
deriving DecidableEq, Repr

/-- Embeds `Anime.to_dict`. -/
def toDict (a : Anime) : RawEntry :=
  ⟨some (.str a.title),
   some (match a.year with | some n => .int n | Option.none => .none),
   some (.list (a.genres.map PyAtom.str)),
   some (.str a.status),
   some (match a.rating with | some n => .int n | Option.none => .none)⟩

/-- Embeds `Anime.from_dict`: construct through `Anime.__init__` with the
source's defaults for missing keys. -/
def fromDict (d : RawEntry) : Except String Anime :=
  initAnime
    (d.titleKey.getD (.str ""))
    (d.yearKey.getD (.str "Unknown"))
    (d.genresKey.getD (.list []))
    (d.statusKey.getD (.str "planned"))
    (d.ratingKey.getD .none)

/-- The serialization step of `AnimeTracker.save`: the JSON array written
is `[a.to_dict() for a in self.animes]`. -/
def saveData (animes : List Anime) : List RawEntry := animes.map toDict

/-- The deserialization step of `AnimeTracker.load` on a parsed JSON
array: `self.animes = [Anime.from_dict(x) for x in data]`; the first
raising entry aborts the comprehension. -/
def loadData (data : List RawEntry) : Except String (List Anime) :=
  data.mapM fromDict

/-- Result of a mutating tracker operation: the returned flag, the new
`self.animes`, and whether `self.save()` was invoked. -/
structure OpResult where
  ok : Bool
  store : List Anime
  saved : Bool
deriving DecidableEq, Repr

/-- Embeds `AnimeTracker.add_anime`. -/
def addAnime (animes : List Anime) (a : Anime) : OpResult :=
  if animes.any (fun b => lowerStr b.title = lowerStr a.title) then
    ⟨false, animes, false⟩
  else
    ⟨true, animes ++ [a], true⟩

/-- Embeds `AnimeTracker.delete_by_title`: `self.animes` is reassigned to the
filtered list in both branches; save runs only when the length shrank. -/
def deleteByTitle (animes : List Anime) (title : String) : OpResult :=
  let kept := animes.filter (fun a => lowerStr a.title ≠ lowerStr title)
  if kept.length < animes.length then ⟨true, kept, true⟩
  else ⟨false, kept, false⟩

/-- Embeds `AnimeTracker.search`. -/
def searchOp (animes : List Anime) (kw : String) : List Anime :=
  let k := lowerStr (stripStr kw)
  if k = "" then animes
  else
    animes.filter (fun a =>
      strContains (lowerStr a.title) k ||
      a.genres.any (fun g => strContains (lowerStr g) k))

/-- Embeds `collections.Counter` as an association list in key-insertion order:
one `update` step for a single element increments an existing key in
place or appends a fresh key with count 1. -/
def bump (c : List (String × Nat)) (k : String) : List (String × Nat) :=
  if c.any (fun p => p.1 = k) then
    c.map (fun p => if p.1 = k then (p.1, p.2 + 1) else p)
  else c ++ [(k, 1)]

/-- Embeds `counter.update(ks)` for a list of keys. -/
def counterUpdate (c : List (String × Nat)) (ks : List String) :
    List (String × Nat) := ks.foldl bump c

/-- The `genre_counter` built by `AnimeTracker.stats`. -/
def genreCounter (animes : List Anime) : List (String × Nat) :=
  animes.foldl (fun c a => counterUpdate c a.genres) []

/-- Stable insertion into a count-descending list: the new element goes
after every element of at least its count (later insertion order loses
ties, as in `sorted(..., reverse=True)`). -/
def insertD (p : String × Nat) : List (String × Nat) → List (String × Nat)
  | [] => [p]
  | q :: rest => if p.2 ≤ q.2 then q :: insertD p rest else p :: q :: rest

/-- Embeds `counter.most_common()` (all items): counter items sorted by count,
descending, stably in key-insertion order. -/
def mostCommon (c : List (String × Nat)) : List (String × Nat) :=
  c.foldl (fun acc p => insertD p acc) []

/-- Round-half-to-even on rationals, as Python `round` on an exactly
representable value. -/
def roundHalfEven (q : ℚ) : Int :=
  let n := ⌊q⌋
  let r := q - n
  if r < 1 / 2 then n
  else if 1 / 2 < r then n + 1
  else if n % 2 = 0 then n else n + 1

/-- Python `round(q, 2)` at rational fidelity. -/
def round2 (q : ℚ) : ℚ := (roundHalfEven (q * 100) : ℚ) / 100

/-- Embeds `AnimeTracker.stats`: total count, average of present ratings
rounded to 2 places (`None` when no rating is present), and
`genre_counter.most_common(3)`. -/
def statsOp (animes : List Anime) : Nat × Option ℚ × List (String × Nat) :=
  let ratings : List Int := animes.filterMap (fun a => a.rating)
  (animes.length,
   if ratings = [] then Option.none
   else some (round2 ((ratings.sum : ℚ) / (ratings.length : ℚ))),
   (mostCommon (genreCounter animes)).take 3)

/-- The `liked` counter of `AnimeTracker.recommend`: genre counts over
records with a present rating of at least 4. -/
def likedCounter (animes : List Anime) : List (String × Nat) :=
  animes.foldl
    (fun c a =>
      match a.rating with
      | some r => if 4 ≤ r then counterUpdate c a.genres else c
      | Option.none => c)
    []

/-- The fixed in-code catalog of `AnimeTracker.recommend`. -/
def CATALOG : List (String × List String) :=
  [("Action", ["Attack on Titan", "Chainsaw Man", "Cyberpunk: Edgerunners"]),
   ("Fantasy", ["Re:Zero", "Mushoku Tensei", "Frieren: Beyond Journey\x27s End"]),
   ("School", ["Too Many Losing Heroines!", "Kaguya-sama: Love is War", "Horimiya"]),
   ("Band", ["K-ON", "MyGO!!!!!", "Girls Band Cry"])]

/-- Embeds `if g in CATALOG: CATALOG[g]`. -/
def lookupCatalog (g : String) : Option (List String) :=
  (CATALOG.find? (fun p => p.1 = g)).map Prod.snd

/-- Embeds `AnimeTracker.recommend`. -/
def recommendOp (animes : List Anime) (topN : Nat) : List String :=
  let liked := likedCounter animes
  if liked = [] then []
  else
    let fav := (mostCommon liked).map Prod.fst
    let recs := fav.foldl
      (fun acc g =>
        match lookupCatalog g with
        | some ts => acc ++ ts
        | Option.none => acc)
      []
    let existing := animes.map (fun a => lowerStr a.title)
    let uniq := recs.foldl
      (fun acc r =>
        if existing.contains (lowerStr r) || acc.contains r then acc
        else acc ++ [r])
      []
    uniq.take topN

/-! ### Spec-side notions -/

/-- The Store already holds a record whose title matches `a`'s
case-insensitively (the rejection condition of `add`). -/
def TitleClash (animes : List Anime) (a : Anime) : Prop :=
  ∃ b ∈ animes, lowerStr b.title = lowerStr a.title

instance (s : List Anime) (a : Anime) : Decidable (TitleClash s a) :=
  decidable_of_iff (∃ b ∈ s, lowerStr b.title = lowerStr a.title) Iff.rfl

/-- Concrete fixtures used by witnesses and counterexamples. -/
def animeNaruto : Anime := ⟨"Naruto", some 2002, ["Action"], "watching", some 5⟩

def animeNARUTO : Anime := ⟨"NARUTO", Option.none, [], "planned", Option.none⟩

def animeBleach : Anime := ⟨"Bleach", Option.none, ["School"], "completed", some 3⟩

def animeRomance : Anime := ⟨"X", Option.none, ["Romance"], "planned", some 5⟩

def animeB : Anime := ⟨"B", Option.none, [], "planned", Option.none⟩

/-! ### Generic inversion lemmas for the `Except` embedding -/

theorem except_bind_ok {ε α β : Type} (e : Except ε α) (k : α → Except ε β)
    (b : β) : (e >>= k) = .ok b ↔ ∃ v, e = .ok v ∧ k v = .ok b := by
  cases e with
  | ok v => simp [Bind.bind, Except.bind]
  | error err =>
    simp only [Bind.bind, Except.bind]
    constructor
    · intro h; cases h
    · rintro ⟨v, hv, -⟩; cases hv

/-- Inversion: `Anime.__init__` succeeds exactly when each field expression does,
and then the fields of the result are the respective values. -/
theorem initAnime_fields {t y g st r : PyVal} {a : Anime}
    (h : initAnime t y g st r = .ok a) :
    titleOf t = .ok a.title ∧ yearOf y = .ok a.year ∧
    genresOf g = .ok a.genres ∧ statusOf st = .ok a.status ∧
    ratingOf r = .ok a.rating := by
  simp only [initAnime, except_bind_ok] at h
  obtain ⟨tv, ht, yv, hy, gv, hg, sv, hs, rv, hr, hpure⟩ := h
  have hpure' : except_okS
      (⟨tv, yv, gv, sv, rv⟩ : Anime) = .ok a := hpure
  injection hpure' with h2
  subst h2
  exact ⟨ht, hy, hg, hs, hr⟩

/-! ### C1: record construction can in fact fail -/

/-- C1: the claim says Record construction never fails, in particular on
durable-file entries with missing keys.  The code contradicts it: for an
entry whose `year` key is absent, `from_dict` substitutes the default
`"Unknown"`, which is truthy, so the constructor evaluates
`int("Unknown")` and raises `ValueError`. -/
theorem c1_fromDict_missing_year_raises :
    fromDict ⟨some (.str "X"), Option.none, Option.none, Option.none,
      Option.none⟩ = .error "ValueError" := by decide

/-! ### C3: add rejects case-insensitive duplicates, else appends -/

/-- C3: if some stored record's title matches the new record's title
case-insensitively, `add` returns failure with the Store unchanged and no
save; otherwise it appends the record at the end, saves, and returns
success. -/
theorem c3_add_anime_spec (s : List Anime) (a : Anime) :
    (TitleClash s a → addAnime s a = ⟨false, s, false⟩) ∧
    (¬TitleClash s a → addAnime s a = ⟨true, s ++ [a], true⟩) := by
  constructor
  · intro h
    have hc : (s.any fun b => lowerStr b.title = lowerStr a.title) = true := by
      rw [List.any_eq_true]
      obtain ⟨b, hb, he⟩ := h
      exact ⟨b, hb, by simpa using he⟩
    simp [addAnime, hc]
  · intro h
    have hc : (s.any fun b => lowerStr b.title = lowerStr a.title) = false := by
      rw [List.any_eq_false]
      intro b hb he
      exact h ⟨b, hb, by simpa using he⟩
    simp [addAnime, hc]

theorem c3_witness :
    addAnime [animeNaruto] animeNARUTO = ⟨false, [animeNaruto], false⟩ ∧
    addAnime [animeNaruto] animeBleach =
      ⟨true, [animeNaruto, animeBleach], true⟩ :=
  ⟨(c3_add_anime_spec [animeNaruto] animeNARUTO).1 (by decide),
   (c3_add_anime_spec [animeNaruto] animeBleach).2 (by decide)⟩

/-! ### C4: delete removes all case-insensitive matches or fails -/

/-- C4: when some record's title matches the argument case-insensitively,
`delete_by_title` keeps exactly the non-matching records, saves, and
returns success; when none matches it returns failure, leaves the Store
unchanged, and does not save. -/
theorem c4_delete_by_title_spec (s : List Anime) (t : String) :
    ((∃ a ∈ s, lowerStr a.title = lowerStr t) →
      deleteByTitle s t =
        ⟨true, s.filter (fun a => lowerStr a.title ≠ lowerStr t), true⟩) ∧
    ((∀ a ∈ s, lowerStr a.title ≠ lowerStr t) →
      deleteByTitle s t = ⟨false, s, false⟩) := by
  constructor
  · intro h
    have hlt : (s.filter fun a =>
        decide (lowerStr a.title ≠ lowerStr t)).length < s.length := by
      rw [List.length_filter_lt_length_iff_exists]
      obtain ⟨a, ha, he⟩ := h
      exact ⟨a, ha, by simpa using he⟩
    simp only [deleteByTitle]
    rw [if_pos hlt]
  · intro h
    have hself : (s.filter fun a =>
        decide (lowerStr a.title ≠ lowerStr t)) = s := by
      rw [List.filter_eq_self]
      intro a ha
      simpa using h a ha
    simp only [deleteByTitle]
    rw [hself, if_neg (lt_irrefl s.length)]

theorem c4_witness :
    deleteByTitle [animeNaruto, animeBleach] "naruto" =
      ⟨true, [animeBleach], true⟩ ∧
    deleteByTitle [animeNaruto] "One Piece" = ⟨false, [animeNaruto], false⟩ := by
  refine ⟨?_, (c4_delete_by_title_spec [animeNaruto] "One Piece").2 (by decide)⟩
  have h := (c4_delete_by_title_spec [animeNaruto, animeBleach] "naruto").1
    (by decide)
  rw [h]
  decide

/-! ### C2: emptiness of recommend -/

/-- If no record passes the `rating >= 4` test, the `liked` counter stays
empty. -/
theorem likedCounter_eq_nil (s : List Anime)
    (h : ∀ a ∈ s, ∀ r, a.rating = some r → r < 4) : likedCounter s = [] := by
  have key : ∀ (s' : List Anime) (c : List (String × Nat)),
      (∀ a ∈ s', ∀ r, a.rating = some r → r < 4) →
      s'.foldl
        (fun c a =>
          match a.rating with
          | some r => if 4 ≤ r then counterUpdate c a.genres else c
          | Option.none => c) c = c := by
    intro s'
    induction s' with
    | nil => intro c _; rfl
    | cons a rest ih =>
      intro c hall
      have hstep :
          (match a.rating with
           | some r => if 4 ≤ r then counterUpdate c a.genres else c
           | Option.none => c) = c := by
        cases hr : a.rating with
        | none => rfl
        | some r =>
          have : r < 4 := hall a (by simp) r hr
          simp [not_le.mpr this]
      simpa [List.foldl_cons, hstep] using
        ih c (fun b hb => hall b (by simp [hb]))
  exact key s [] h

/-- C2 (amended): whenever no record has a present rating of at least 4,
`recommend` returns the empty list.  (The converse direction of the
original claim is refuted by `c2_counterexample`.) -/
theorem c2_recommend_empty (s : List Anime)
    (h : ∀ a ∈ s, ∀ r, a.rating = some r → r < 4) : recommendOp s 3 = [] := by
  simp [recommendOp, likedCounter_eq_nil s h]

theorem c2_witness : recommendOp [animeBleach] 3 = [] :=
  c2_recommend_empty [animeBleach] (by decide)

/-- C2 counterexample: a Store containing a record rated 5 whose genre is
absent from the catalog; at least one record has rating ≥ 4, yet
`recommend` returns the empty list — refuting "non-empty whenever some
record has rating ≥ 4". -/
theorem c2_counterexample :
    animeRomance ∈ [animeRomance] ∧ animeRomance.rating = some 5 ∧
    (4 : Int) ≤ 5 ∧ recommendOp [animeRomance] 3 = [] := by decide

/-! ### C10: year absence is decided by truthiness -/

/-- C10: the constructor maps a `year` of integer `0`, `None`, or the
empty string to an absent year (truthiness test), while the string
`"0"` is truthy and yields year `0`. -/
theorem c10_year_truthiness :
    yearOf (.int 0) = .ok Option.none ∧
    yearOf .none = .ok Option.none ∧
    yearOf (.str "") = .ok Option.none ∧
    yearOf (.str "0") = .ok (some 0) ∧
    (∀ t g st r a, initAnime t (.int 0) g st r = .ok a →
      a.year = Option.none) ∧
    (∀ t g st r a, initAnime t (.str "0") g st r = .ok a → a.year = some 0) := by
  refine ⟨by decide, by decide, by decide, by decide, ?_, ?_⟩
  · intro t g st r a h
    have hy := (initAnime_fields h).2.1
    have : except_okS (Option.none : Option Int) = .ok a.year := by
      rw [← hy]; decide
    simpa using this.symm
  · intro t g st r a h
    have hy := (initAnime_fields h).2.1
    have : except_okS (some (0 : Int)) = .ok a.year := by
      rw [← hy]; decide
    simpa using this.symm

theorem c10_witness :
    (⟨"T", Option.none, [], "planned", Option.none⟩ : Anime).year =
      Option.none ∧
    (⟨"T", some 0, [], "planned", Option.none⟩ : Anime).year = some 0 :=
  ⟨c10_year_truthiness.2.2.2.2.1 (.str "T") (.list []) (.str "planned") .none
      ⟨"T", Option.none, [], "planned", Option.none⟩ (by decide),
   c10_year_truthiness.2.2.2.2.2 (.str "T") (.list []) (.str "planned") .none
      ⟨"T", some 0, [], "planned", Option.none⟩ (by decide)⟩

/-! ### C8: the uniqueness invariant -/

/-- Store states reachable from the empty Store through the two mutating
operations. -/
inductive ReachableStore : List Anime → Prop
  | empty : ReachableStore []
  | add (s : List Anime) (a : Anime) :
      ReachableStore s → ReachableStore (addAnime s a).store
  | del (s : List Anime) (t : String) :
      ReachableStore s → ReachableStore (deleteByTitle s t).store

/-- Observation: `delete_by_title` always reassigns the filtered list, whether or not
anything was removed. -/
theorem deleteByTitle_store (s : List Anime) (t : String) :
    (deleteByTitle s t).store =
      s.filter (fun a => lowerStr a.title ≠ lowerStr t) := by
  simp only [deleteByTitle]
  split <;> rfl

/-- C8 (amended): every Store reachable from the empty Store by `add` and
`delete_by_title` has pairwise case-insensitively distinct titles.  (For
Stores produced by `load` the claim fails: see `c8_counterexample`.) -/
theorem c8_unique_titles_invariant (s : List Anime) (h : ReachableStore s) :
    s.Pairwise (fun a b => lowerStr a.title ≠ lowerStr b.title) := by
  induction h with
  | empty => exact List.Pairwise.nil
  | add s a _ ih =>
    by_cases hc : (s.any fun b => lowerStr b.title = lowerStr a.title) = true
    · simpa [addAnime, hc] using ih
    · have hall := List.any_eq_false.mp (Bool.not_eq_true _ ▸ hc)
      have : (addAnime s a).store = s ++ [a] := by
        simp [addAnime, hc]
      rw [this, List.pairwise_append]
      refine ⟨ih, List.pairwise_singleton _ _, ?_⟩
      intro x hx b hb
      rw [List.mem_singleton] at hb
      subst hb
      intro he
      exact hall x hx (by simpa using he)
  | del s t _ ih =>
    rw [deleteByTitle_store]
    exact List.Pairwise.sublist (List.filter_sublist s) ih

theorem c8_witness :
    ((addAnime [] animeNaruto).store).Pairwise
      (fun a b => lowerStr a.title ≠ lowerStr b.title) :=
  c8_unique_titles_invariant _ (ReachableStore.add [] animeNaruto
    ReachableStore.empty)

/-- C8 counterexample: `load` deserializes entries without any
deduplication, so a durable file holding titles `"A"` and `"a"` produces
a Store with two case-insensitively equal titles, violating the claimed
invariant for load-produced Stores. -/
theorem c8_counterexample :
    loadData
      [⟨some (.str "A"), some .none, Option.none, Option.none, Option.none⟩,
       ⟨some (.str "a"), some .none, Option.none, Option.none, Option.none⟩] =
      .ok [⟨"A", Option.none, [], "planned", Option.none⟩,
           ⟨"a", Option.none, [], "planned", Option.none⟩] ∧
    lowerStr "A" = lowerStr "a" ∧
    ¬ ([⟨"A", Option.none, [], "planned", Option.none⟩,
        ⟨"a", Option.none, [], "planned", Option.none⟩] : List Anime).Pairwise
        (fun a b => lowerStr a.title ≠ lowerStr b.title) := by
  refine ⟨by decide, by decide, ?_⟩
  intro h
  exact (List.pairwise_cons.mp h).1
    (⟨"a", Option.none, [], "planned", Option.none⟩ : Anime)
    (by decide) (by decide)

/-! ### Character and string lemmas for the Python primitives -/

theorem char_toNat_ofNat_valid (n : Nat) (h : n < 55296) :
    (Char.ofNat n).toNat = n := by
  have hv : n.isValidChar := Or.inl h
  rw [Char.ofNat, dif_pos hv]
  rfl

theorem digitChar_toNat (n : Nat) (h : n < 10) :
    (digitChar n).toNat = 48 + n := by
  rw [digitChar, char_toNat_ofNat_valid _ (by omega)]

theorem uint32_le_iff_toNat_le {a b : UInt32} : a ≤ b ↔ a.toNat ≤ b.toNat := by
  rw [UInt32.le_def, BitVec.le_def]
  exact Iff.rfl

theorem char_isDigit_of_toNat {c : Char} (h1 : 48 ≤ c.toNat)
    (h2 : c.toNat ≤ 57) : c.isDigit = true := by
  simp only [Char.isDigit, ge_iff_le, Bool.and_eq_true, decide_eq_true_eq]
  refine ⟨uint32_le_iff_toNat_le.mpr ?_, uint32_le_iff_toNat_le.mpr ?_⟩
  · rw [(by decide : ((48 : UInt32)).toNat = 48)]; exact h1
  · rw [(by decide : ((57 : UInt32)).toNat = 57)]; exact h2

theorem char_toNat_bounds_of_isDigit {c : Char} (h : c.isDigit = true) :
    48 ≤ c.toNat ∧ c.toNat ≤ 57 := by
  simp only [Char.isDigit, ge_iff_le, Bool.and_eq_true, decide_eq_true_eq] at h
  have h1 := uint32_le_iff_toNat_le.mp h.1
  have h2 := uint32_le_iff_toNat_le.mp h.2
  rw [(by decide : ((48 : UInt32)).toNat = 48)] at h1
  rw [(by decide : ((57 : UInt32)).toNat = 57)] at h2
  exact ⟨h1, h2⟩

theorem digitChar_isDigit (n : Nat) (h : n < 10) :
    (digitChar n).isDigit = true := by
  have ht := digitChar_toNat n h
  exact char_isDigit_of_toNat (by omega) (by omega)

theorem digitsVal_append (cs : List Char) (c : Char) :
    digitsVal (cs ++ [c]) = digitsVal cs * 10 + (c.toNat - 48) := by
  simp [digitsVal, List.foldl_append]

theorem natDigitsAux_spec :
    ∀ (fuel n : Nat), n < fuel →
      natDigitsAux fuel n ≠ [] ∧
      (natDigitsAux fuel n).all Char.isDigit = true ∧
      digitsVal (natDigitsAux fuel n) = n := by
  intro fuel
  induction fuel with
  | zero => intro n h; omega
  | succ f ih =>
    intro n h
    by_cases h10 : n < 10
    · refine ⟨by simp [natDigitsAux, h10], ?_, ?_⟩
      · simp [natDigitsAux, h10, digitChar_isDigit n h10]
      · have := digitChar_toNat n h10
        simp [natDigitsAux, h10, digitsVal, this]
    · have hpos : 0 < n := by omega
      have hlt : n / 10 < n := Nat.div_lt_self hpos (by omega)
      have hdiv : n / 10 < f := by omega
      obtain ⟨hne, hall, hval⟩ := ih (n / 10) hdiv
      have hmod : n % 10 < 10 := Nat.mod_lt _ (by omega)
      refine ⟨by simp [natDigitsAux, h10], ?_, ?_⟩
      · simp only [natDigitsAux, if_neg h10, List.all_append]
        simp [hall, digitChar_isDigit _ hmod]
      · simp only [natDigitsAux, if_neg h10]
        rw [digitsVal_append, hval, digitChar_toNat _ hmod]
        omega

theorem natRepr_spec (n : Nat) :
    isdigitStr (natRepr n) = true ∧ digitsVal (natRepr n).data = n := by
  obtain ⟨hne, hall, hval⟩ := natDigitsAux_spec (n + 1) n (by omega)
  have hdata : (natRepr n).data = natDigitsAux (n + 1) n := rfl
  constructor
  · simp [isdigitStr, hdata, hne, hall]
  · rw [hdata]; exact hval

theorem isSpaceChar_eq_false_of_toNat {c : Char}
    (h : c.toNat ≠ 32 ∧ c.toNat ≠ 9 ∧ c.toNat ≠ 13 ∧ c.toNat ≠ 10) :
    isSpaceChar c = false := by
  simp only [isSpaceChar, Char.isWhitespace, Bool.or_eq_false_iff,
    decide_eq_false_iff_not]
  refine ⟨⟨⟨?_, ?_⟩, ?_⟩, ?_⟩ <;> intro he
  · exact h.1 (by rw [he]; rfl)
  · exact h.2.1 (by rw [he]; rfl)
  · exact h.2.2.1 (by rw [he]; rfl)
  · exact h.2.2.2 (by rw [he]; rfl)

theorem isDigit_not_space {c : Char} (h : c.isDigit = true) :
    isSpaceChar c = false := by
  have hb := char_toNat_bounds_of_isDigit h
  exact isSpaceChar_eq_false_of_toNat (by omega)

theorem dropWhile_eq_self_of {p : Char → Bool} {l : List Char}
    (h : ∀ c ∈ l, p c = false) : l.dropWhile p = l := by
  cases l with
  | nil => rfl
  | cons x xs =>
    rw [List.dropWhile_cons, if_neg]
    simp [h x (List.mem_cons_self x xs)]

theorem stripChars_eq_self_of {cs : List Char}
    (h : ∀ c ∈ cs, isSpaceChar c = false) : stripChars cs = cs := by
  unfold stripChars
  rw [dropWhile_eq_self_of h,
    dropWhile_eq_self_of (fun c hc => h c (by simpa using hc)),
    List.reverse_reverse]

theorem dropWhile_dropWhile (p : Char → Bool) (l : List Char) :
    (l.dropWhile p).dropWhile p = l.dropWhile p := by
  induction l with
  | nil => rfl
  | cons x xs ih =>
    by_cases h : p x
    · simp [List.dropWhile_cons, h, ih]
    · simp [List.dropWhile_cons, h]

theorem dropWhile_prefix_eq {w : Char → Bool} {t l : List Char}
    (hp : t <+: l) (hl : l.dropWhile w = l) : t.dropWhile w = t := by
  cases t with
  | nil => rfl
  | cons x ts =>
    obtain ⟨rest, hrest⟩ := hp
    rw [← hrest] at hl
    have hx : w x = false := by
      by_cases hw : w x
      · rw [List.cons_append, List.dropWhile_cons, if_pos (by simp [hw])] at hl
        have hle := (@List.dropWhile_suffix _ (ts ++ rest) w).length_le
        have hlen := congrArg List.length hl
        rw [List.length_cons] at hlen
        omega
      · simpa using hw
    rw [List.dropWhile_cons, if_neg (by simp [hx])]

theorem stripChars_idem (cs : List Char) :
    stripChars (stripChars cs) = stripChars cs := by
  have ha : (cs.dropWhile isSpaceChar).dropWhile isSpaceChar
      = cs.dropWhile isSpaceChar := dropWhile_dropWhile _ _
  have hb_pre :
      (((cs.dropWhile isSpaceChar).reverse.dropWhile isSpaceChar).reverse)
        <+: cs.dropWhile isSpaceChar := by
    have hsuf := @List.dropWhile_suffix _
      ((cs.dropWhile isSpaceChar).reverse) isSpaceChar
    have hrp := @List.reverse_prefix _
      ((cs.dropWhile isSpaceChar).reverse.dropWhile isSpaceChar)
      ((cs.dropWhile isSpaceChar).reverse)
    rw [List.reverse_reverse] at hrp
    exact hrp.mpr hsuf
  have h1 := dropWhile_prefix_eq hb_pre ha
  have hdef : stripChars cs =
      ((cs.dropWhile isSpaceChar).reverse.dropWhile isSpaceChar).reverse := rfl
  rw [hdef]
  unfold stripChars
  rw [h1, List.reverse_reverse, dropWhile_dropWhile]

theorem lowerChar_toNat_upper {c : Char} (h1 : 65 ≤ c.toNat)
    (h2 : c.toNat ≤ 90) : (lowerChar c).toNat = c.toNat + 32 := by
  rw [lowerChar, if_pos ⟨h1, h2⟩, char_toNat_ofNat_valid _ (by omega)]

theorem lowerChar_eq_self {c : Char} (h : ¬(65 ≤ c.toNat ∧ c.toNat ≤ 90)) :
    lowerChar c = c := if_neg h

theorem lowerChar_idem (c : Char) : lowerChar (lowerChar c) = lowerChar c := by
  by_cases h : 65 ≤ c.toNat ∧ c.toNat ≤ 90
  · have ht := lowerChar_toNat_upper h.1 h.2
    apply lowerChar_eq_self
    rw [ht]
    omega
  · rw [lowerChar_eq_self h, lowerChar_eq_self h]

theorem isSpaceChar_lowerChar (c : Char) :
    isSpaceChar (lowerChar c) = isSpaceChar c := by
  by_cases h : 65 ≤ c.toNat ∧ c.toNat ≤ 90
  · have ht := lowerChar_toNat_upper h.1 h.2
    rw [isSpaceChar_eq_false_of_toNat (by omega),
      isSpaceChar_eq_false_of_toNat (by omega)]
  · rw [lowerChar_eq_self h]

theorem dropWhile_map_lowerChar (cs : List Char) :
    (cs.map lowerChar).dropWhile isSpaceChar =
      (cs.dropWhile isSpaceChar).map lowerChar := by
  induction cs with
  | nil => rfl
  | cons x xs ih =>
    rw [List.map_cons, List.dropWhile_cons, List.dropWhile_cons,
      isSpaceChar_lowerChar]
    by_cases h : isSpaceChar x
    · simp [h, ih]
    · simp [h]

theorem stripChars_map_lowerChar (cs : List Char) :
    stripChars (cs.map lowerChar) = (stripChars cs).map lowerChar := by
  unfold stripChars
  rw [dropWhile_map_lowerChar, ← List.map_reverse, dropWhile_map_lowerChar,
    List.map_reverse]

theorem stripStr_idem (s : String) : stripStr (stripStr s) = stripStr s :=
  congrArg String.mk (stripChars_idem s.data)

theorem lowerStr_idem (s : String) : lowerStr (lowerStr s) = lowerStr s := by
  unfold lowerStr
  refine congrArg String.mk ?_
  rw [List.map_map]
  exact List.map_congr_left (fun c _ => lowerChar_idem c)

theorem stripStr_lowerStr_stripStr (s : String) :
    stripStr (lowerStr (stripStr s)) = lowerStr (stripStr s) := by
  unfold stripStr lowerStr
  refine congrArg String.mk ?_
  rw [stripChars_map_lowerChar, stripChars_idem]

theorem parseDigits_digits {cs : List Char} (hne : cs ≠ [])
    (hall : cs.all Char.isDigit = true) :
    parseDigits cs = some (digitsVal cs) := by
  rw [parseDigits, if_pos ⟨hne, hall⟩]

theorem pyInt_digit_string {s : String} (h : isdigitStr s = true) :
    pyInt (.str s) = .ok (digitsVal s.data : Int) := by
  have hsd : s.data ≠ [] ∧ s.data.all Char.isDigit = true := by
    simpa [isdigitStr] using h
  have hstrip : stripChars s.data = s.data :=
    stripChars_eq_self_of (fun c hc =>
      isDigit_not_space (List.all_eq_true.mp hsd.2 c hc))
  simp only [pyInt, hstrip]
  cases hcs : s.data with
  | nil => exact absurd hcs hsd.1
  | cons c rest =>
    have hcd : c.isDigit = true :=
      List.all_eq_true.mp hsd.2 c (by rw [hcs]; exact List.mem_cons_self _ _)
    have hb := char_toNat_bounds_of_isDigit hcd
    have hcm : c ≠ '-' := fun he => by
      rw [he] at hb; exact absurd hb (by decide)
    have hcp : c ≠ '+' := fun he => by
      rw [he] at hb; exact absurd hb (by decide)
    rw [parseIntChars, if_neg hcm, if_neg hcp,
      parseDigits_digits (by simp) (hcs ▸ hsd.2)]
    rfl

/-- The rating normalization rule as the claim words it: a value whose
string form is a pure digit sequence with integer value in `[0, 5]`
yields that integer; every other value yields "no value". -/
def ratingSpec (v : PyVal) : Option Int :=
  if isdigitStr (pyStr v) ∧ 0 ≤ (digitsVal (pyStr v).data : Int) ∧
      (digitsVal (pyStr v).data : Int) ≤ 5
  then some (digitsVal (pyStr v).data) else Option.none

theorem ratingOf_eq_spec (v : PyVal) : ratingOf v = .ok (ratingSpec v) := by
  cases v with
  | none => decide
  | list xs =>
    have hfalse : isdigitStr (pyStr (.list xs)) = false := by
      have hdata : (pyStr (.list xs)).data =
          '[' :: (", ".intercalate (xs.map atomRepr) ++ "]").data := by
        simp [pyStr, pyRepr, String.data_append]
      simp [isdigitStr, hdata]
    rw [ratingOf, if_neg (by simp [hfalse]), ratingSpec,
      if_neg (fun hc => by rw [hfalse] at hc; cases hc.1)]
  | str s =>
    by_cases hd : isdigitStr s = true
    · have hpy : pyStr (.str s) = s := rfl
      rw [ratingOf, hpy, if_pos hd, pyInt_digit_string hd, ratingSpec, hpy]
      have hmap : (except_okS (digitsVal s.data : Int)).map
          (fun n => if 0 ≤ n ∧ n ≤ 5 then some n else Option.none) =
          .ok (if 0 ≤ (digitsVal s.data : Int) ∧ (digitsVal s.data : Int) ≤ 5
            then some (digitsVal s.data : Int) else Option.none) := rfl
      rw [hmap]
      have h0 : (0 : Int) ≤ (digitsVal s.data : Int) := Int.ofNat_nonneg _
      by_cases h5 : (digitsVal s.data : Int) ≤ 5
      · rw [if_pos ⟨h0, h5⟩, if_pos ⟨hd, h0, h5⟩]
      · rw [if_neg (fun hc => h5 hc.2), if_neg (fun hc => h5 hc.2.2)]
    · have hpy : pyStr (.str s) = s := rfl
      rw [ratingOf, hpy, if_neg hd, ratingSpec, hpy,
        if_neg (fun hc => hd hc.1)]
  | int n =>
    have hpy : pyStr (.int n) = intRepr n := rfl
    by_cases hn : n < 0
    · have hdata : (pyStr (.int n)).data = '-' :: (natRepr n.natAbs).data := by
        rw [hpy, intRepr, if_pos hn, String.data_append]
        rfl
      have hfalse : isdigitStr (pyStr (.int n)) = false := by
        simp [isdigitStr, hdata]
      rw [ratingOf, if_neg (by simp [hfalse]), ratingSpec,
        if_neg (fun hc => by rw [hfalse] at hc; cases hc.1)]
    · have hrepr : pyStr (.int n) = natRepr n.toNat := by
        rw [hpy, intRepr, if_neg hn]
      obtain ⟨hdig, hval⟩ := natRepr_spec n.toNat
      have hcast : (digitsVal (pyStr (.int n)).data : Int) = n := by
        rw [hrepr, hval, Int.toNat_of_nonneg (by omega)]
      rw [ratingOf, if_pos (by rw [hrepr]; exact hdig)]
      have hmap : (pyInt (.int n)).map
          (fun m => if 0 ≤ m ∧ m ≤ 5 then some m else Option.none) =
          .ok (if 0 ≤ n ∧ n ≤ 5 then some n else Option.none) := rfl
      rw [hmap, ratingSpec]
      by_cases h5 : n ≤ 5
      · by_cases h0 : 0 ≤ n
        · rw [if_pos ⟨h0, h5⟩,
            if_pos ⟨by rw [hrepr]; exact hdig, by rw [hcast]; omega,
              by rw [hcast]; exact h5⟩, hcast]
        · omega
      · rw [if_neg (fun hc => h5 hc.2),
          if_neg (fun hc => h5 (by rw [hcast] at hc; exact hc.2.2))]

/-- C7: the rating field expression never raises, and its value follows
the digit-string-then-range rule: the string form of the input must be a
pure digit sequence whose value lies in `[0, 5]`, in which case the
rating is that integer, and otherwise the rating is absent. -/
theorem c7_rating_domain :
    (∀ v, ratingOf v = .ok (ratingSpec v)) ∧
    (∀ t y g st r a, initAnime t y g st r = .ok a →
      a.rating = ratingSpec r) := by
  refine ⟨ratingOf_eq_spec, ?_⟩
  intro t y g st r a h
  have hr := (initAnime_fields h).2.2.2.2
  rw [ratingOf_eq_spec] at hr
  injection hr with h2
  exact h2.symm

theorem c7_witness :
    ratingOf (.str "7") = .ok (ratingSpec (.str "7")) ∧
    (⟨"T", Option.none, [], "planned", some 5⟩ : Anime).rating =
      ratingSpec (.str "5") :=
  ⟨c7_rating_domain.1 (.str "7"),
   c7_rating_domain.2 (.str "T") .none (.list []) (.str "planned") (.str "5")
     ⟨"T", Option.none, [], "planned", some 5⟩ (by decide)⟩

/-! ### C9: save/load round-trip -/

theorem ok_bind {ε α β : Type} (x : α) (k : α → Except ε β) :
    (Except.ok x >>= k) = k x := rfl

theorem mapM_eq_ok_of_forall {α β : Type} (f : α → Except String β)
    (g : α → β) :
    ∀ l : List α, (∀ x ∈ l, f x = .ok (g x)) → l.mapM f = .ok (l.map g) := by
  intro l
  induction l with
  | nil => intro _; rfl
  | cons a rest ih =>
    intro h
    rw [List.mapM_cons, h a (List.mem_cons_self _ _),
      ih (fun x hx => h x (List.mem_cons_of_mem _ hx)), ok_bind, ok_bind]
    rfl

theorem mapM_ok_mem {α β : Type} (f : α → Except String β) :
    ∀ (l : List α) (out : List β), l.mapM f = .ok out →
      ∀ y ∈ out, ∃ x ∈ l, f x = .ok y := by
  intro l
  induction l with
  | nil =>
    intro out h y hy
    have : except_okS ([] : List β) = .ok out := h
    injection this with h2
    subst h2
    cases hy
  | cons a rest ih =>
    intro out h y hy
    rw [List.mapM_cons, except_bind_ok] at h
    obtain ⟨v, hv, h2⟩ := h
    rw [except_bind_ok] at h2
    obtain ⟨vs, hvs, h3⟩ := h2
    have h3' : except_okS (v :: vs) = .ok out := h3
    injection h3' with h4
    subst h4
    rcases List.mem_cons.mp hy with hy1 | hy2
    · exact ⟨a, List.mem_cons_self _ _, hy1 ▸ hv⟩
    · obtain ⟨x, hx, hfx⟩ := ih vs hvs y hy2
      exact ⟨x, List.mem_cons_of_mem _ hx, hfx⟩

/-- The shape every record produced by `Anime.__init__` has: trimmed
title, trimmed nonempty genre tokens, trimmed lowercase status, and a
rating inside `[0, 5]` when present. -/
def Normalized (a : Anime) : Prop :=
  stripStr a.title = a.title ∧
  (∀ g ∈ a.genres, stripStr g = g ∧ g ≠ "") ∧
  stripStr a.status = a.status ∧
  lowerStr a.status = a.status ∧
  (∀ n, a.rating = some n → 0 ≤ n ∧ n ≤ 5)

theorem init_normalized {t y g st r : PyVal} {a : Anime}
    (h : initAnime t y g st r = .ok a) : Normalized a := by
  obtain ⟨ht, hy, hg, hs, hr⟩ := initAnime_fields h
  have htitle : stripStr a.title = a.title := by
    cases t with
    | str s =>
      have : stripStr s = a.title := by
        have h1 : except_okS (stripStr s) = .ok a.title := ht
        injection h1
      rw [← this, stripStr_idem]
    | none => simp [titleOf] at ht
    | int m => simp [titleOf] at ht
    | list xs => simp [titleOf] at ht
  have hgen : ∀ x ∈ a.genres, stripStr x = x ∧ x ≠ "" := by
    intro x hx
    simp only [genresOf, except_bind_ok] at hg
    obtain ⟨items, hitems, stripped, hstripped, h3⟩ := hg
    have h3' : except_okS
        (stripped.filter (fun g => g ≠ "")) = .ok a.genres := h3
    injection h3' with h4
    rw [← h4] at hx
    have hxs := List.mem_filter.mp hx
    have hxne : x ≠ "" := by simpa using hxs.2
    obtain ⟨item, _, hitem⟩ := mapM_ok_mem _ _ _ hstripped x hxs.1
    have hxstrip : stripStr x = x := by
      cases item with
      | str s =>
        have : except_okS (stripStr s) = .ok x := hitem
        injection this with h5
        rw [← h5, stripStr_idem]
      | none => simp [stripItem] at hitem
      | int m => simp [stripItem] at hitem
      | list xs => simp [stripItem] at hitem
    exact ⟨hxstrip, hxne⟩
  have hstat : a.status = "planned" ∨
      ∃ s, a.status = lowerStr (stripStr s) := by
    cases st with
    | str s =>
      have he : statusOf (.str s) = if pyTruthy (.str s)
          then .ok (lowerStr (stripStr s)) else .ok "planned" := rfl
      rw [he] at hs
      by_cases hse : pyTruthy (.str s) = true
      · rw [if_pos hse] at hs
        right
        refine ⟨s, ?_⟩
        injection hs with h5
        exact h5.symm
      · rw [if_neg (by simpa using hse)] at hs
        left
        injection hs with h5
        exact h5.symm
    | none =>
      have he : statusOf .none = .ok "planned" := rfl
      rw [he] at hs
      left
      injection hs with h5
      exact h5.symm
    | int m =>
      have he : statusOf (.int m) = if pyTruthy (.int m)
          then Except.error "AttributeError" else .ok "planned" := rfl
      rw [he] at hs
      by_cases hm : pyTruthy (.int m) = true
      · rw [if_pos hm] at hs; cases hs
      · rw [if_neg (by simpa using hm)] at hs
        left
        injection hs with h5
        exact h5.symm
    | list xs =>
      have he : statusOf (.list xs) = if pyTruthy (.list xs)
          then Except.error "AttributeError" else .ok "planned" := rfl
      rw [he] at hs
      by_cases hm : pyTruthy (.list xs) = true
      · rw [if_pos hm] at hs; cases hs
      · rw [if_neg (by simpa using hm)] at hs
        left
        injection hs with h5
        exact h5.symm
  have hss : stripStr a.status = a.status := by
    rcases hstat with h1 | ⟨s, h1⟩
    · rw [h1]; decide
    · rw [h1, stripStr_lowerStr_stripStr]
  have hsl : lowerStr a.status = a.status := by
    rcases hstat with h1 | ⟨s, h1⟩
    · rw [h1]; decide
    · rw [h1, lowerStr_idem]
  have hrat : ∀ n, a.rating = some n → 0 ≤ n ∧ n ≤ 5 := by
    intro n hn
    rw [ratingOf_eq_spec] at hr
    have : ratingSpec r = a.rating := by
      have h1 : except_okS (ratingSpec r) = .ok a.rating := hr
      injection h1
    rw [ratingSpec] at this
    by_cases hc : isdigitStr (pyStr r) = true ∧
        0 ≤ (digitsVal (pyStr r).data : Int) ∧
        (digitsVal (pyStr r).data : Int) ≤ 5
    · rw [if_pos hc] at this
      rw [hn] at this
      injection this with h5
      rw [← h5]
      exact hc.2
    · rw [if_neg hc] at this
      rw [hn] at this
      cases this
  exact ⟨htitle, hgen, hss, hsl, hrat⟩

/-- Value of `ratingSpec` at an in-range integer. -/
theorem ratingSpec_int_of_bounds {n : Int} (h0 : 0 ≤ n) (h5 : n ≤ 5) :
    ratingSpec (.int n) = some n := by
  have hpy : pyStr (.int n) = intRepr n := rfl
  have hrepr : pyStr (.int n) = natRepr n.toNat := by
    rw [hpy, intRepr, if_neg (by omega)]
  obtain ⟨hdig, hval⟩ := natRepr_spec n.toNat
  have hcast : (digitsVal (pyStr (.int n)).data : Int) = n := by
    rw [hrepr, hval, Int.toNat_of_nonneg h0]
  rw [ratingSpec,
    if_pos ⟨by rw [hrepr]; exact hdig, by rw [hcast]; omega,
      by rw [hcast]; exact h5⟩, hcast]

theorem initAnime_of_fields {t y g st r : PyVal} {A : Anime}
    (h1 : titleOf t = .ok A.title) (h2 : yearOf y = .ok A.year)
    (h3 : genresOf g = .ok A.genres) (h4 : statusOf st = .ok A.status)
    (h5 : ratingOf r = .ok A.rating) : initAnime t y g st r = .ok A := by
  simp only [initAnime]
  rw [h1, ok_bind, h2, ok_bind, h3, ok_bind, h4, ok_bind, h5, ok_bind]
  rfl

theorem mapM_stripItem_str :
    ∀ gs : List String, (∀ g ∈ gs, stripStr g = g) →
      (gs.map PyVal.str).mapM stripItem = .ok gs := by
  intro gs
  induction gs with
  | nil => intro _; rfl
  | cons g rest ih =>
    intro h
    rw [List.map_cons, List.mapM_cons]
    have h1 : stripItem (PyVal.str g) = .ok g := by
      have he : stripItem (PyVal.str g) = .ok (stripStr g) := rfl
      rw [he, h g (List.mem_cons_self _ _)]
    rw [h1, ok_bind, ih (fun x hx => h x (List.mem_cons_of_mem _ hx)), ok_bind]
    rfl

/-- Evaluation of `genresOf` on a list of already-normalized genre strings returns
them unchanged. -/
theorem genresOf_list_str (gs : List String)
    (h : ∀ g ∈ gs, stripStr g = g ∧ g ≠ "") :
    genresOf (.list (gs.map PyAtom.str)) = .ok gs := by
  have hiter : pyIter (if pyTruthy (.list (gs.map PyAtom.str))
      then (.list (gs.map PyAtom.str)) else .list []) =
      .ok (gs.map PyVal.str) := by
    cases gs with
    | nil => rfl
    | cons g rest =>
      rw [if_pos (by simp [pyTruthy])]
      have he : pyIter (.list ((g :: rest).map PyAtom.str)) =
          .ok (((g :: rest).map PyAtom.str).map PyAtom.toVal) := rfl
      rw [he, List.map_map]
      rfl
  have hmap : (gs.map PyVal.str).mapM stripItem = .ok gs :=
    mapM_stripItem_str gs (fun g hg => (h g hg).1)
  simp only [genresOf, hiter, ok_bind, hmap]
  have hfil : gs.filter (fun g => g ≠ "") = gs := by
    rw [List.filter_eq_self]
    intro g hg
    simpa using (h g hg).2
  rw [hfil]
  rfl

/-- Field-for-field round-trip of one record through `to_dict` and
`from_dict`, for normalized records whose year is not the integer 0 and
whose status is nonempty. -/
theorem fromDict_toDict {a : Anime} (hn : Normalized a)
    (hy : a.year ≠ some 0) (hs : a.status ≠ "") :
    fromDict (toDict a) = .ok a := by
  obtain ⟨hnt, hng, hnss, hnsl, hnr⟩ := hn
  have hfd : fromDict (toDict a) = initAnime (.str a.title)
      (match a.year with | some n => .int n | Option.none => .none)
      (.list (a.genres.map PyAtom.str)) (.str a.status)
      (match a.rating with | some n => .int n | Option.none => .none) := rfl
  rw [hfd]
  refine initAnime_of_fields ?_ ?_ ?_ ?_ ?_
  · have : titleOf (.str a.title) = .ok (stripStr a.title) := rfl
    rw [this, hnt]
  · cases hay : a.year with
    | none => rfl
    | some n =>
      have hn0 : n ≠ 0 := fun h0 => hy (by rw [hay, h0])
      show yearOf (.int n) = .ok (some n)
      have he : yearOf (.int n) = if pyTruthy (.int n)
          then (pyInt (.int n)).map some else .ok Option.none := rfl
      rw [he, if_pos (by simp [pyTruthy, hn0])]
      rfl
  · exact genresOf_list_str a.genres hng
  · have he : statusOf (.str a.status) = if pyTruthy (.str a.status)
        then .ok (lowerStr (stripStr a.status)) else .ok "planned" := rfl
    rw [he, if_pos (by simp [pyTruthy, hs]), hnss, hnsl]
  · cases har : a.rating with
    | none => rfl
    | some n =>
      obtain ⟨h0, h5⟩ := hnr n har
      show ratingOf (.int n) = .ok (some n)
      rw [ratingOf_eq_spec, ratingSpec_int_of_bounds h0 h5]

/-- C9 (amended): `save` then `load` reproduces the Store field-for-field
for any Store of constructor-produced records, provided no record has
year exactly 0 and no record has an empty status.  (Those two exclusions
are forced: see `c9_counterexample` for year 0.) -/
theorem c9_save_load_roundtrip (s : List Anime)
    (h : ∀ a ∈ s, (∃ t y g st r, initAnime t y g st r = .ok a) ∧
      a.year ≠ some 0 ∧ a.status ≠ "") :
    loadData (saveData s) = .ok s := by
  induction s with
  | nil => rfl
  | cons a rest ih =>
    obtain ⟨⟨t, y, g, st, r, hinit⟩, hy, hst⟩ := h a (List.mem_cons_self _ _)
    have hone : fromDict (toDict a) = .ok a :=
      fromDict_toDict (init_normalized hinit) hy hst
    have ih' : (saveData rest).mapM fromDict = .ok rest :=
      ih (fun b hb => h b (List.mem_cons_of_mem _ hb))
    show (toDict a :: saveData rest).mapM fromDict = .ok (a :: rest)
    rw [List.mapM_cons, hone, ok_bind, ih', ok_bind]
    rfl

theorem c9_witness :
    loadData (saveData [⟨"T", some 2020, ["Action"], "planned", some 5⟩]) =
      .ok [⟨"T", some 2020, ["Action"], "planned", some 5⟩] :=
  c9_save_load_roundtrip _ (by
    intro a ha
    rw [List.mem_singleton] at ha
    subst ha
    refine ⟨⟨.str "T", .str "2020", .list [.str "Action"], .str "planned",
      .str "5", by decide⟩, by decide, by decide⟩)

/-- C9 counterexample: the record constructed from year input `"0"` has
year 0 and is addable to the empty Store, but `save` stores the integer
0, which `load`'s constructor treats as falsy: the reloaded record has an
absent year, so the round-trip is not field-for-field equal. -/
theorem c9_counterexample :
    initAnime (.str "T") (.str "0") (.list []) (.str "planned") .none =
      .ok ⟨"T", some 0, [], "planned", Option.none⟩ ∧
    (addAnime [] ⟨"T", some 0, [], "planned", Option.none⟩).store =
      [⟨"T", some 0, [], "planned", Option.none⟩] ∧
    loadData (saveData [⟨"T", some 0, [], "planned", Option.none⟩]) =
      .ok [⟨"T", Option.none, [], "planned", Option.none⟩] ∧
    (⟨"T", Option.none, [], "planned", Option.none⟩ : Anime) ≠
      ⟨"T", some 0, [], "planned", Option.none⟩ := by decide

/-! ### C5: search -/

/-- Python `sub in hay` agrees with list infix. -/
theorem strContains_iff (hay sub : String) :
    strContains hay sub = true ↔ sub.data <:+: hay.data := by
  rw [strContains, List.any_eq_true]
  constructor
  · rintro ⟨i, _, hp⟩
    have hpre : sub.data <+: hay.data.drop i :=
      List.isPrefixOf_iff_prefix.mp hp
    exact List.infix_iff_prefix_suffix.mpr
      ⟨hay.data.drop i, hpre, List.drop_suffix i hay.data⟩
  · intro h
    obtain ⟨pre, post, hsplit⟩ := h
    refine ⟨pre.length, ?_, ?_⟩
    · rw [List.mem_range]
      have hlen := congrArg List.length hsplit
      simp only [List.length_append] at hlen
      omega
    · rw [List.isPrefixOf_iff_prefix, ← hsplit, List.append_assoc,
        List.drop_left]
      exact List.prefix_append _ _

/-- Matching as `search` performs it, with the keyword trimmed before
the case-insensitive substring test. -/
def MatchesTrimmed (kw : String) (a : Anime) : Prop :=
  (lowerStr (stripStr kw)).data <:+: (lowerStr a.title).data ∨
  ∃ g ∈ a.genres, (lowerStr (stripStr kw)).data <:+: (lowerStr g).data

instance (kw : String) (a : Anime) : Decidable (MatchesTrimmed kw a) := by
  unfold MatchesTrimmed
  exact inferInstance

/-- Matching as the claim literally words it: the raw keyword itself is
the case-insensitive substring sought. -/
def MatchesRaw (kw : String) (a : Anime) : Prop :=
  (lowerStr kw).data <:+: (lowerStr a.title).data ∨
  ∃ g ∈ a.genres, (lowerStr kw).data <:+: (lowerStr g).data

instance (kw : String) (a : Anime) : Decidable (MatchesRaw kw a) := by
  unfold MatchesRaw
  exact inferInstance

/-- C5 (amended): a whitespace-only keyword returns the whole Store
(`search` returns `self.animes.copy()`, i.e. the same sequence); any
other keyword returns, in Store order, exactly the records whose title
or some genre token contains the trimmed keyword case-insensitively. -/
theorem c5_search_spec (s : List Anime) (kw : String) :
    (stripStr kw = "" → searchOp s kw = s) ∧
    (stripStr kw ≠ "" →
      searchOp s kw = s.filter (fun a => decide (MatchesTrimmed kw a))) := by
  constructor
  · intro h
    simp only [searchOp]
    rw [h]
    rfl
  · intro h
    have hk : lowerStr (stripStr kw) ≠ "" := by
      intro he
      apply h
      have hmap : (stripStr kw).data.map lowerChar = [] :=
        congrArg String.data he
      have hnil : (stripStr kw).data = [] := List.map_eq_nil_iff.mp hmap
      exact String.ext (by rw [hnil])
    simp only [searchOp]
    rw [if_neg hk]
    apply List.filter_congr
    intro a _
    by_cases hm : MatchesTrimmed kw a
    · rw [decide_eq_true hm]
      rcases hm with h1 | ⟨g, hg, h2⟩
      · rw [Bool.or_eq_true]
        left
        exact (strContains_iff _ _).mpr h1
      · rw [Bool.or_eq_true]
        right
        rw [List.any_eq_true]
        exact ⟨g, hg, (strContains_iff _ _).mpr h2⟩
    · rw [decide_eq_false hm]
      rw [Bool.eq_false_iff]
      intro hcon
      apply hm
      rcases Bool.or_eq_true _ _ |>.mp hcon with h1 | h2
      · exact Or.inl ((strContains_iff _ _).mp h1)
      · obtain ⟨g, hg, hc⟩ := List.any_eq_true.mp h2
        exact Or.inr ⟨g, hg, (strContains_iff _ _).mp hc⟩

theorem c5_witness :
    searchOp [animeNaruto] "   " = [animeNaruto] ∧
    searchOp [animeNaruto, animeBleach] " naru " =
      List.filter (fun a => decide (MatchesTrimmed " naru " a))
        [animeNaruto, animeBleach] :=
  ⟨(c5_search_spec [animeNaruto] "   ").1 (by decide),
   (c5_search_spec [animeNaruto, animeBleach] " naru ").2 (by decide)⟩

/-- C5 counterexample: for the keyword `" B"` (not whitespace-only) and a
record titled `"B"`, the code returns the record because it strips the
keyword before matching, yet neither the title nor any genre contains
`" B"` as a case-insensitive substring — refuting the claim as worded. -/
theorem c5_counterexample :
    stripStr " B" ≠ "" ∧
    searchOp [animeB] " B" = [animeB] ∧
    ¬ MatchesRaw " B" animeB := by decide

/-! ### C6: stats -/

/-- The concatenation of all records' genre lists, in Store order. -/
def allGenres (animes : List Anime) : List String :=
  animes.flatMap (fun a => a.genres)

/-- The ratings present in the Store, in Store order. -/
def presentRatings (animes : List Anime) : List Int :=
  animes.filterMap (fun a => a.rating)

/-- Position of the first occurrence of `k` in `l` (length if absent):
the "first-encountered" order of genres. -/
def firstIdx : List String → String → Nat
  | [], _ => 0
  | x :: xs, k => if x = k then 0 else firstIdx xs k + 1

/-- The order `most_common` must realize: strictly larger count first,
ties resolved by first-encounter position in `l`. -/
def tieOrd (l : List String) (p q : String × Nat) : Prop :=
  q.2 < p.2 ∨ (p.2 = q.2 ∧ firstIdx l p.1 < firstIdx l q.1)

theorem firstIdx_lt_length {l : List String} {k : String} (h : k ∈ l) :
    firstIdx l k < l.length := by
  induction l with
  | nil => cases h
  | cons x xs ih =>
    by_cases hx : x = k
    · simp [firstIdx, hx]
    · rcases List.mem_cons.mp h with h1 | h2
      · exact absurd h1.symm hx
      · simp only [firstIdx, if_neg hx, List.length_cons]
        exact Nat.succ_lt_succ (ih h2)

theorem firstIdx_append_left {l : List String} {k : String} (h : k ∈ l)
    (m : List String) : firstIdx (l ++ m) k = firstIdx l k := by
  induction l with
  | nil => cases h
  | cons x xs ih =>
    by_cases hx : x = k
    · simp [firstIdx, hx]
    · rcases List.mem_cons.mp h with h1 | h2
      · exact absurd h1.symm hx
      · simp [firstIdx, hx, ih h2]

theorem firstIdx_append_right {l : List String} {k : String} (h : k ∉ l)
    (m : List String) : firstIdx (l ++ m) k = l.length + firstIdx m k := by
  induction l with
  | nil => simp [firstIdx]
  | cons x xs ih =>
    have hx : x ≠ k := fun he => h (he ▸ List.mem_cons_self x xs)
    have hxs : k ∉ xs := fun hm => h (List.mem_cons_of_mem _ hm)
    rw [List.cons_append]
    show (if x = k then 0 else firstIdx (xs ++ m) k + 1) =
      (x :: xs).length + firstIdx m k
    rw [if_neg hx, ih hxs, List.length_cons]
    omega

/-- The invariant tying a `Counter` association list to the element list
it was built from: distinct keys in first-encounter order, counts equal
to occurrence counts, all elements covered. -/
def GoodCounter (l : List String) (c : List (String × Nat)) : Prop :=
  (c.map Prod.fst).Nodup ∧
  (∀ p ∈ c, p.1 ∈ l ∧ p.2 = l.count p.1) ∧
  (∀ k ∈ l, ∃ p ∈ c, p.1 = k) ∧
  c.Pairwise (fun p q => firstIdx l p.1 < firstIdx l q.1)

theorem goodCounter_bump {l : List String} {c : List (String × Nat)}
    (h : GoodCounter l c) (x : String) :
    GoodCounter (l ++ [x]) (bump c x) := by
  obtain ⟨hnd, hcnt, hcov, hpw⟩ := h
  by_cases hmem : (c.any fun p => p.1 = x) = true
  · obtain ⟨p0, hp0, hp0b⟩ := List.any_eq_true.mp hmem
    have hp0x : p0.1 = x := by simpa using hp0b
    have hxl : x ∈ l := hp0x ▸ (hcnt p0 hp0).1
    rw [bump, if_pos hmem]
    have hkey : ∀ p : String × Nat,
        ((fun p => if p.1 = x then (p.1, p.2 + 1) else p) p).1 = p.1 := by
      intro p
      by_cases hp : p.1 = x <;> simp [hp]
    refine ⟨?_, ?_, ?_, ?_⟩
    · have hmm : (c.map fun p => if p.1 = x then (p.1, p.2 + 1) else p).map
          Prod.fst = c.map Prod.fst := by
        rw [List.map_map]
        exact List.map_congr_left (fun p _ => hkey p)
      rw [hmm]
      exact hnd
    · intro q hq
      obtain ⟨p, hp, hpq⟩ := List.mem_map.mp hq
      subst hpq
      obtain ⟨hpl, hpc⟩ := hcnt p hp
      by_cases hpx : p.1 = x
      · simp only [if_pos hpx]
        refine ⟨List.mem_append_left _ hpl, ?_⟩
        rw [List.count_append, hpx]
        have h1 : List.count x [x] = 1 := by simp
        rw [h1]
        rw [hpx] at hpc
        omega
      · simp only [if_neg hpx]
        refine ⟨List.mem_append_left _ hpl, ?_⟩
        have hc0 : List.count p.1 [x] = 0 :=
          List.count_eq_zero.mpr (by simpa using hpx)
        rw [List.count_append, hc0, Nat.add_zero]
        exact hpc
    · intro k hk
      rcases List.mem_append.mp hk with hkl | hkx
      · obtain ⟨p, hp, hpk⟩ := hcov k hkl
        exact ⟨_, List.mem_map_of_mem _ hp, by rw [hkey p]; exact hpk⟩
      · rw [List.mem_singleton] at hkx
        subst hkx
        exact ⟨_, List.mem_map_of_mem _ hp0, by rw [hkey p0]; exact hp0x⟩
    · rw [List.pairwise_map]
      refine List.Pairwise.imp_of_mem ?_ hpw
      intro p q hp hq hlt
      rw [hkey, hkey, firstIdx_append_left (hcnt p hp).1,
        firstIdx_append_left (hcnt q hq).1]
      exact hlt
  · have hnox : ∀ p ∈ c, p.1 ≠ x := by
      intro p hp he
      have hfalse := List.any_eq_false.mp (Bool.eq_false_iff.mpr hmem) p hp
      simp [he] at hfalse
    have hxl : x ∉ l := by
      intro hx
      obtain ⟨p, hp, hpk⟩ := hcov x hx
      exact hnox p hp hpk
    rw [bump, if_neg hmem]
    refine ⟨?_, ?_, ?_, ?_⟩
    · rw [List.map_append, List.nodup_append]
      refine ⟨hnd, List.nodup_singleton _, ?_⟩
      intro a ha hb
      obtain ⟨p, hp, hpa⟩ := List.mem_map.mp ha
      have hax : a = x := by simpa using hb
      exact hnox p hp (hpa.trans hax)
    · intro q hq
      rcases List.mem_append.mp hq with hq1 | hq2
      · obtain ⟨hpl, hpc⟩ := hcnt q hq1
        refine ⟨List.mem_append_left _ hpl, ?_⟩
        have hc0 : List.count q.1 [x] = 0 :=
          List.count_eq_zero.mpr (by simpa using hnox q hq1)
        rw [List.count_append, hc0, Nat.add_zero]
        exact hpc
      · rw [List.mem_singleton] at hq2
        subst hq2
        refine ⟨List.mem_append_right _ (by simp), ?_⟩
        show (1 : Nat) = (l ++ [x]).count x
        rw [List.count_append, List.count_eq_zero.mpr hxl]
        simp
    · intro k hk
      rcases List.mem_append.mp hk with hkl | hkx
      · obtain ⟨p, hp, hpk⟩ := hcov k hkl
        exact ⟨p, List.mem_append_left _ hp, hpk⟩
      · rw [List.mem_singleton] at hkx
        exact ⟨(x, 1), List.mem_append_right _ (by simp), hkx.symm⟩
    · rw [List.pairwise_append]
      refine ⟨?_, List.pairwise_singleton _ _, ?_⟩
      · refine List.Pairwise.imp_of_mem ?_ hpw
        intro p q hp hq hlt
        rw [firstIdx_append_left (hcnt p hp).1,
          firstIdx_append_left (hcnt q hq).1]
        exact hlt
      · intro p hp q hq
        rw [List.mem_singleton] at hq
        subst hq
        show firstIdx (l ++ [x]) p.1 < firstIdx (l ++ [x]) x
        rw [firstIdx_append_left (hcnt p hp).1, firstIdx_append_right hxl]
        have h1 := firstIdx_lt_length (hcnt p hp).1
        have h2 : firstIdx [x] x = 0 := by simp [firstIdx]
        omega

theorem goodCounter_foldl (l : List String) :
    GoodCounter l (l.foldl bump []) := by
  induction l using List.reverseRecOn with
  | nil =>
    exact ⟨List.nodup_nil, by simp, by simp, List.Pairwise.nil⟩
  | append_singleton xs x ih =>
    rw [List.foldl_append]
    exact goodCounter_bump ih x

theorem genreCounter_eq_foldl (animes : List Anime) :
    genreCounter animes = (allGenres animes).foldl bump [] := by
  suffices h : ∀ (s : List Anime) (c : List (String × Nat)),
      s.foldl (fun c a => counterUpdate c a.genres) c =
        (s.flatMap (fun a => a.genres)).foldl bump c from h animes []
  intro s
  induction s with
  | nil => intro c; rfl
  | cons a rest ih =>
    intro c
    rw [List.foldl_cons, List.flatMap_cons, List.foldl_append]
    exact ih (counterUpdate c a.genres)

theorem mem_insertD {p x : String × Nat} :
    ∀ {acc : List (String × Nat)}, x ∈ insertD p acc ↔ x = p ∨ x ∈ acc := by
  intro acc
  induction acc with
  | nil => simp [insertD]
  | cons q rest ih =>
    rw [insertD]
    by_cases h : p.2 ≤ q.2
    · rw [if_pos h, List.mem_cons, ih, List.mem_cons]
      tauto
    · rw [if_neg h, List.mem_cons, List.mem_cons]

theorem insertD_perm (p : String × Nat) (acc : List (String × Nat)) :
    (insertD p acc).Perm (p :: acc) := by
  induction acc with
  | nil => exact List.Perm.refl _
  | cons q rest ih =>
    rw [insertD]
    by_cases h : p.2 ≤ q.2
    · rw [if_pos h]
      exact (ih.cons q).trans (List.Perm.swap p q rest)
    · rw [if_neg h]

theorem insertD_pairwise {l : List String} {p : String × Nat} :
    ∀ {acc : List (String × Nat)}, acc.Pairwise (tieOrd l) →
      (∀ q ∈ acc, q.2 = p.2 → firstIdx l q.1 < firstIdx l p.1) →
      (insertD p acc).Pairwise (tieOrd l) := by
  intro acc
  induction acc with
  | nil =>
    intro _ _
    exact List.pairwise_singleton _ _
  | cons q rest ih =>
    intro h hp
    obtain ⟨hq, hrest⟩ := List.pairwise_cons.mp h
    rw [insertD]
    by_cases hle : p.2 ≤ q.2
    · rw [if_pos hle, List.pairwise_cons]
      refine ⟨?_, ih hrest (fun r hr he => hp r (List.mem_cons_of_mem _ hr) he)⟩
      intro y hy
      rcases mem_insertD.mp hy with h1 | h2
      · subst h1
        rcases lt_or_eq_of_le hle with hlt | heq
        · exact Or.inl hlt
        · exact Or.inr ⟨heq.symm, hp q (List.mem_cons_self _ _) heq.symm⟩
      · exact hq y h2
    · rw [if_neg hle, List.pairwise_cons]
      refine ⟨?_, h⟩
      intro y hy
      rcases List.mem_cons.mp hy with h1 | h2
      · subst h1
        exact Or.inl (by omega)
      · have hqy := hq y h2
        have hy2 : y.2 ≤ q.2 := by
          rcases hqy with h3 | ⟨h3, _⟩ <;> omega
        exact Or.inl (by omega)

theorem foldl_insertD_pairwise {l : List String} :
    ∀ (c acc : List (String × Nat)),
      acc.Pairwise (tieOrd l) →
      (∀ p ∈ acc, ∀ q ∈ c, firstIdx l p.1 < firstIdx l q.1) →
      c.Pairwise (fun p q => firstIdx l p.1 < firstIdx l q.1) →
      (c.foldl (fun acc p => insertD p acc) acc).Pairwise (tieOrd l) := by
  intro c
  induction c with
  | nil =>
    intro acc h _ _
    exact h
  | cons p rest ih =>
    intro acc hacc hcross hc
    obtain ⟨hp, hrest⟩ := List.pairwise_cons.mp hc
    rw [List.foldl_cons]
    apply ih
    · exact insertD_pairwise hacc
        (fun q hq _ => hcross q hq p (List.mem_cons_self _ _))
    · intro q hq r hr
      rcases mem_insertD.mp hq with h1 | h2
      · subst h1
        exact hp r hr
      · exact hcross q h2 r (List.mem_cons_of_mem _ hr)
    · exact hrest

theorem mostCommon_perm (c : List (String × Nat)) : (mostCommon c).Perm c := by
  suffices h : ∀ (c acc : List (String × Nat)),
      (c.foldl (fun acc p => insertD p acc) acc).Perm (acc ++ c) by
    simpa using h c []
  intro c
  induction c with
  | nil =>
    intro acc
    rw [List.foldl_nil, List.append_nil]
  | cons p rest ih =>
    intro acc
    rw [List.foldl_cons]
    have h1 := ih (insertD p acc)
    have h2 : (insertD p acc ++ rest).Perm ((p :: acc) ++ rest) :=
      (insertD_perm p acc).append_right rest
    refine h1.trans (h2.trans ?_)
    simpa using List.perm_middle.symm

theorem mostCommon_pairwise {l : List String} {c : List (String × Nat)}
    (hc : c.Pairwise (fun p q => firstIdx l p.1 < firstIdx l q.1)) :
    (mostCommon c).Pairwise (tieOrd l) :=
  foldl_insertD_pairwise c [] List.Pairwise.nil (by simp) hc

/-- The Store of the claim's concrete example: ratings
`[5, 5, 4, None, 2]`, genres `[[A], [A,B], [B], [C], [A]]`. -/
def exampleStore : List Anime :=
  [⟨"T1", Option.none, ["A"], "planned", some 5⟩,
   ⟨"T2", Option.none, ["A", "B"], "planned", some 5⟩,
   ⟨"T3", Option.none, ["B"], "planned", some 4⟩,
   ⟨"T4", Option.none, ["C"], "planned", Option.none⟩,
   ⟨"T5", Option.none, ["A"], "planned", some 2⟩]

/-- C6: `stats` returns the record count; the average of present
ratings rounded to two places (absent when no rating is present); and a
top-3 genre list whose entries carry the true occurrence counts, ordered
descending by count with ties in first-encounter order, with distinct
genres, of length `min 3 (number of distinct genres)`, and dominating
every genre left out.  On the claim's example the average is 4 and the
top genre is A with count 3. -/
theorem c6_stats_spec :
    (∀ animes : List Anime,
      (statsOp animes).1 = animes.length ∧
      (statsOp animes).2.1 =
        (if presentRatings animes = [] then Option.none
         else some (round2 (((presentRatings animes).sum : ℚ) /
           ((presentRatings animes).length : ℚ)))) ∧
      (∀ p ∈ (statsOp animes).2.2,
        p.1 ∈ allGenres animes ∧ p.2 = (allGenres animes).count p.1) ∧
      ((statsOp animes).2.2).Pairwise (tieOrd (allGenres animes)) ∧
      (((statsOp animes).2.2).map Prod.fst).Nodup ∧
      ((statsOp animes).2.2).length = min 3 (allGenres animes).dedup.length ∧
      (∀ k ∈ allGenres animes, (∀ p ∈ (statsOp animes).2.2, p.1 ≠ k) →
        ∀ p ∈ (statsOp animes).2.2, (allGenres animes).count k ≤ p.2)) ∧
    ((statsOp exampleStore).1 = 5 ∧ (statsOp exampleStore).2.1 = some 4 ∧
      (statsOp exampleStore).2.2 = [("A", 3), ("B", 2), ("C", 1)]) := by
  constructor
  · intro animes
    have hgc : GoodCounter (allGenres animes) (genreCounter animes) := by
      rw [genreCounter_eq_foldl]
      exact goodCounter_foldl _
    obtain ⟨hnd, hcnt, hcov, hpw⟩ := hgc
    have hmc_perm := mostCommon_perm (genreCounter animes)
    have hmc_pw : (mostCommon (genreCounter animes)).Pairwise
        (tieOrd (allGenres animes)) := mostCommon_pairwise hpw
    have htg : (statsOp animes).2.2 =
        (mostCommon (genreCounter animes)).take 3 := rfl
    refine ⟨rfl, rfl, ?_, ?_, ?_, ?_, ?_⟩
    · intro p hp
      rw [htg] at hp
      exact hcnt p (hmc_perm.mem_iff.mp (List.mem_of_mem_take hp))
    · rw [htg]
      exact List.Pairwise.sublist (List.take_sublist _ _) hmc_pw
    · rw [htg]
      have h1 : ((mostCommon (genreCounter animes)).map Prod.fst).Nodup :=
        ((hmc_perm.map Prod.fst).nodup_iff).mpr hnd
      exact h1.sublist ((List.take_sublist _ _).map Prod.fst)
    · rw [htg, List.length_take, hmc_perm.length_eq]
      have hkeys : ((genreCounter animes).map Prod.fst).Perm
          (allGenres animes).dedup := by
        rw [List.perm_ext_iff_of_nodup hnd (List.nodup_dedup _)]
        intro a
        rw [List.mem_dedup]
        constructor
        · intro ha
          obtain ⟨p, hp, hpa⟩ := List.mem_map.mp ha
          exact hpa ▸ (hcnt p hp).1
        · intro ha
          obtain ⟨p, hp, hpk⟩ := hcov a ha
          exact List.mem_map.mpr ⟨p, hp, hpk⟩
      have hlen : (genreCounter animes).length =
          (allGenres animes).dedup.length := by
        have h2 := hkeys.length_eq
        rw [List.length_map] at h2
        exact h2
      rw [hlen]
    · intro k hk hknot p hp
      obtain ⟨q, hq, hqk⟩ := hcov k hk
      have hq_mc : q ∈ mostCommon (genreCounter animes) :=
        hmc_perm.mem_iff.mpr hq
      have hq_not_take : q ∉ (mostCommon (genreCounter animes)).take 3 :=
        fun hqt => hknot q (htg ▸ hqt) hqk
      have hq_drop : q ∈ (mostCommon (genreCounter animes)).drop 3 := by
        rcases List.mem_append.mp
            ((List.take_append_drop 3
              (mostCommon (genreCounter animes))) ▸ hq_mc) with h1 | h2
        · exact absurd h1 hq_not_take
        · exact h2
      have hpair : tieOrd (allGenres animes) p q := by
        have hsplit := List.take_append_drop 3
          (mostCommon (genreCounter animes))
        have hpw2 : ((mostCommon (genreCounter animes)).take 3 ++
            (mostCommon (genreCounter animes)).drop 3).Pairwise
            (tieOrd (allGenres animes)) := by
          rw [hsplit]
          exact hmc_pw
        exact (List.pairwise_append.mp hpw2).2.2 p (htg ▸ hp) q hq_drop
      have hqcnt : q.2 = (allGenres animes).count k := by
        rw [← hqk]
        exact (hcnt q hq).2
      rcases hpair with h1 | ⟨h1, _⟩
      · rw [← hqcnt]
        omega
      · rw [← hqcnt]
        omega
  · refine ⟨by decide, ?_, by decide⟩
    show (statsOp exampleStore).2.1 = some 4
    simp [statsOp, exampleStore]
    norm_num [round2, roundHalfEven]

theorem c6_witness :
    ("A" ∈ allGenres exampleStore ∧
      (3 : Nat) = (allGenres exampleStore).count "A") ∧
    (statsOp exampleStore).2.1 = some 4 :=
  ⟨(c6_stats_spec.1 exampleStore).2.2.1 ("A", 3) (by decide),
   c6_stats_spec.2.2.1⟩

end AnimeTracker
